import Mathlib

/-!
Verification of the NeaByteLab/Fetch HTTP client.

This development shallowly embeds the pure decision logic of the request
pipeline: the retry attempt loop, the retry predicate, URL building, the
NDJSON stream framing, the balancer strategies, the forwarder dispatch,
the response-type parser dispatch, the token-bucket rate limiter and the
upload-progress percentage computation.  Effectful collaborators (the
transport call, JSON decoding, URL syntax validation) are parameters of
the embedding.  Numbers that the source manipulates as JS floats are
modelled as rationals; JS array/string loops become structural recursion
over lists.
-/

namespace Fetch

/-! ## Error model

A normalized view of the values the retry policy inspects, mirroring the
duck-typed probes in `shouldRetry` (src/unnamed/part_012): whether the
value is an `Error` instance, its `name` property, whether it is a
`FetchError`, the `name` property of its `data` payload, and its HTTP
`status`.
-/

/-- The `misc.ABORT_ERROR_NAME` constant. -/
def abortErrorName : String := "AbortError"

/-- Shallow view of a thrown error, with exactly the fields probed by
`shouldRetry` and the retry loop. -/
structure ErrInfo where
  isError : Bool
  name : Option String
  isFetchError : Bool
  dataName : Option String
  status : Option Nat
  deriving DecidableEq, Repr, Inhabited

/-- Result of one physical attempt, as produced by `executeRequest`:
`success: true, data` or `success: false, error`. -/
inductive AttemptResult (T : Type) where
  | success (data : T)
  | failure (error : ErrInfo)
  deriving DecidableEq, Repr

/-- Checks whether an attempt result is a failure. -/
def AttemptResult.isFailure {T : Type} : AttemptResult T → Bool
  | .success _ => false
  | .failure _ => true

/-- Extracts the error of a failed attempt (default on success). -/
def AttemptResult.errorOf {T : Type} : AttemptResult T → ErrInfo
  | .success _ => default
  | .failure e => e

/-! ## shouldRetry (src/unnamed/part_012, lines 85-111) -/

/-- Model of `shouldRetry(error, attempt, maxRetries)`: false when the
attempt index has reached `maxRetries`, on abort-named errors, on
`FetchError`s whose `data` carries an abort name, and on `FetchError`s
with an HTTP status in the 400..499 range; true otherwise. -/
def shouldRetry (error : ErrInfo) (attempt maxRetries : Nat) : Bool :=
  if maxRetries ≤ attempt then
    false
  else if (error.isError && error.name == some abortErrorName)
      || error.name == some abortErrorName then
    false
  else if error.isFetchError && error.dataName == some abortErrorName then
    false
  else if error.isFetchError &&
      (match error.status with
       | some s => decide (400 ≤ s) && decide (s < 500)
       | none => false) then
    false
  else
    true

/-! ## The attempt loop (src/src/core/Fetch.ts `request`, lines 195-221,
and the identical `RetryHandler.executeWithRetries`)

The loop runs `attempt = 0 ..= retries`.  Each iteration performs one
physical attempt; on success the data is returned, on failure the error
is recorded and, when `shouldRetry` allows it, exactly one backoff sleep
happens (either the `Retry-After` hint or `waitForRetry`) before the next
iteration; otherwise the loop breaks.  After the loop the last error is
thrown: as-is when it is a `FetchError`, re-wrapped otherwise.

The model returns the outcome together with the number of physical
attempts performed and the number of backoff sleeps awaited.
-/

/-- Outcome of the request pipeline: data returned, a `FetchError` thrown
as-is, or the last error re-wrapped into a fresh `FetchError`. -/
inductive RequestOutcome (T : Type) where
  | returned (data : T)
  | threwFetch (error : ErrInfo)
  | threwWrapped (lastError : Option ErrInfo)
  deriving DecidableEq, Repr

/-- Model of the throw after the attempt loop: `lastError` is thrown
unchanged when it is a `FetchError`, otherwise wrapped into one. -/
def finishRetryLoop {T : Type} (lastError : Option ErrInfo) : RequestOutcome T :=
  match lastError with
  | some e => if e.isFetchError then .threwFetch e else .threwWrapped (some e)
  | none => .threwWrapped none

/-- One step of the `for (attempt = 0; attempt <= retries; attempt++)`
loop, with `fuel = retries + 1 - attempt` remaining iterations.  Returns
the outcome, the number of physical attempts and the number of backoff
sleeps performed from this iteration on. -/
def retryLoopGo {T : Type} (exec : Nat → AttemptResult T) (retries : Nat)
    (attempt : Nat) (lastError : Option ErrInfo) : Nat → RequestOutcome T × Nat × Nat
  | 0 => (finishRetryLoop lastError, 0, 0)
  | fuel + 1 =>
    match exec attempt with
    | .success d => (.returned d, 1, 0)
    | .failure e =>
      if shouldRetry e attempt retries then
        let r := retryLoopGo exec retries (attempt + 1) (some e) fuel
        (r.1, r.2.1 + 1, r.2.2 + 1)
      else
        (finishRetryLoop (some e), 1, 0)

/-- Model of the whole retry pipeline for a validated configuration:
`exec i` is the result of physical attempt `i`. -/
def executeWithRetries {T : Type} (exec : Nat → AttemptResult T) (retries : Nat) :
    RequestOutcome T × Nat × Nat :=
  retryLoopGo exec retries 0 none (retries + 1)

/-! ## buildUrl (src/src/core/Builder.ts, lines 28-38) -/

/-- Model of JS `String.prototype.startsWith`. -/
def strStartsWith (s pat : String) : Bool := pat.data.isPrefixOf s.data

/-- Model of JS `String.prototype.endsWith`. -/
def strEndsWith (s pat : String) : Bool := pat.data.isSuffixOf s.data

/-- Model of JS `s.slice(0, -1)`: drop the final character. -/
def dropLastChar (s : String) : String := String.mk s.data.dropLast

/-- The `schemes.HTTP` constant. -/
def schemeHttp : String := "http://"

/-- The `schemes.HTTPS` constant. -/
def schemeHttps : String := "https://"

/-- Model of `buildUrl(url, baseURL)`: a url that already carries a
scheme is returned unchanged; with a non-empty base the base (trailing
slash stripped) is concatenated with the slash-normalized url; an empty
base returns the url as-is. -/
def buildUrl (url baseURL : String) : String :=
  if strStartsWith url schemeHttp || strStartsWith url schemeHttps then
    url
  else if baseURL ≠ "" then
    let base := if strEndsWith baseURL "/" then dropLastChar baseURL else baseURL
    let endpoint := if strStartsWith url "/" then url else "/" ++ url
    base ++ endpoint
  else
    url

/-- An attempt oracle that fails every attempt with the given errors. -/
def failAll {T : Type} (errs : Nat → ErrInfo) : Nat → AttemptResult T :=
  fun i => .failure (errs i)

/-- Helper: `shouldRetry` is false on a `FetchError` carrying a 4xx
status, at every attempt index and for every retry budget. -/
theorem shouldRetry_clientError_false (e : ErrInfo) (s : Nat)
    (hfe : e.isFetchError = true) (hst : e.status = some s)
    (h4 : 400 ≤ s) (h5 : s < 500) (attempt maxRetries : Nat) :
    shouldRetry e attempt maxRetries = false := by
  have h45 : (decide (400 ≤ s) && decide (s < 500)) = true := by simp [h4, h5]
  simp only [shouldRetry, hfe, hst, h45, Bool.true_and]
  simp

/-- Helper: `shouldRetry` is true on a non-abort-looking `FetchError`
carrying a 5xx status while the attempt index is below the budget. -/
theorem shouldRetry_serverError_true (e : ErrInfo) (s : Nat)
    (hfe : e.isFetchError = true)
    (hn : e.name ≠ some abortErrorName)
    (hd : e.dataName ≠ some abortErrorName)
    (hst : e.status = some s) (h5 : 500 ≤ s)
    (attempt maxRetries : Nat) (hlt : attempt < maxRetries) :
    shouldRetry e attempt maxRetries = true := by
  have hs' : ¬ (s < 500) := by omega
  simp [shouldRetry, hfe, hst, hn, hd, hs', Nat.not_le.mpr hlt]

/-- Helper: `shouldRetry` is false once the attempt index reaches the
budget. -/
theorem shouldRetry_exhausted_false (e : ErrInfo) (attempt maxRetries : Nat)
    (h : maxRetries ≤ attempt) : shouldRetry e attempt maxRetries = false := by
  simp [shouldRetry, h]

/-- Helper: the loop tail starting at `attempt` with
`fuel + 1 = retries + 1 - attempt` iterations left, when every attempt
fails with a retryable 5xx error, runs all remaining iterations and
throws the final error. -/
theorem retryLoopGo_all5xx {T : Type} (errs : Nat → ErrInfo) (retries : Nat)
    (hfe : ∀ i, (errs i).isFetchError = true)
    (hn : ∀ i, (errs i).name ≠ some abortErrorName)
    (hd : ∀ i, (errs i).dataName ≠ some abortErrorName)
    (hst : ∀ i, ∃ s, (errs i).status = some s ∧ 500 ≤ s) :
    ∀ fuel attempt lastError, attempt + fuel = retries →
      retryLoopGo (failAll (T := T) errs) retries attempt lastError (fuel + 1) =
        (.threwFetch (errs retries), fuel + 1, fuel) := by
  intro fuel
  induction fuel with
  | zero =>
    intro attempt lastError heq
    have ha : attempt = retries := by omega
    subst ha
    obtain ⟨s, hs, h5⟩ := hst attempt
    simp [retryLoopGo, failAll,
      shouldRetry_exhausted_false (errs attempt) attempt attempt le_rfl,
      finishRetryLoop, hfe attempt]
  | succ k ih =>
    intro attempt lastError heq
    obtain ⟨s, hs, h5⟩ := hst attempt
    have hsr : shouldRetry (errs attempt) attempt retries = true :=
      shouldRetry_serverError_true (errs attempt) s (hfe attempt) (hn attempt)
        (hd attempt) hs h5 attempt retries (by omega)
    have ihr := ih (attempt + 1) (some (errs attempt)) (by omega)
    rw [retryLoopGo]
    simp only [failAll]
    rw [hsr]
    simp [ihr]

/-- C1 (amended): for every retries budget `n`, when every physical
attempt fails with a `FetchError` carrying a 5xx status and not looking
like an abort (neither its `name` nor its `data`'s `name` is
`AbortError`), the pipeline performs exactly `n + 1` physical attempts
with `n` backoff sleeps and throws the last normalized error as-is. -/
theorem retry_all5xx_attempt_count {T : Type} (errs : Nat → ErrInfo) (n : Nat)
    (hfe : ∀ i, (errs i).isFetchError = true)
    (hn : ∀ i, (errs i).name ≠ some abortErrorName)
    (hd : ∀ i, (errs i).dataName ≠ some abortErrorName)
    (hst : ∀ i, ∃ s, (errs i).status = some s ∧ 500 ≤ s) :
    executeWithRetries (failAll (T := T) errs) n = (.threwFetch (errs n), n + 1, n) :=
  retryLoopGo_all5xx errs n hfe hn hd hst n 0 none (by omega)

/-- A normalized HTTP 503 error, as built by `executeRequest` for a
failing response with a non-abort body. -/
def err503 : ErrInfo :=
  { isError := true, name := some "FetchError", isFetchError := true
    dataName := none, status := some 503 }

/-- The constant attempt error sequence returning `err503`. -/
def const503 : Nat → ErrInfo := fun _ => err503

/-- Witness for the amended C1: with retries = 1 and both attempts
failing with HTTP 503, exactly 2 attempts and 1 backoff sleep happen and
the final error is thrown. -/
theorem retry_all5xx_attempt_count_witness :
    executeWithRetries (failAll (T := Unit) const503) 1 =
      (.threwFetch err503, 2, 1) :=
  retry_all5xx_attempt_count const503 1 (fun _ => rfl)
    (fun _ => (by decide : err503.name ≠ some abortErrorName))
    (fun _ => (by decide : err503.dataName ≠ some abortErrorName))
    (fun _ => ⟨503, rfl, by decide⟩)

/-- A normalized HTTP 500 error whose parsed response body carries a
`name` property equal to `AbortError`. -/
def abortBody500 : ErrInfo :=
  { isError := true, name := some "FetchError", isFetchError := true
    dataName := some abortErrorName, status := some 500 }

/-- C1 counterexample: with retries = 1 and every physical attempt
failing with HTTP 500 (a 5xx), the pipeline performs 1 attempt, not
`1 + 1 = 2`: `shouldRetry` treats the error as an abort because the
parsed 500 response body carries `name: AbortError`. -/
theorem retry_all5xx_counterexample :
    executeWithRetries (failAll (T := Unit) (fun _ => abortBody500)) 1 =
      (.threwFetch abortBody500, 1, 0) ∧ (1 : Nat) ≠ 1 + 1 := by
  exact ⟨by decide, by decide⟩

/-- C2: a `FetchError` with status in the 400..499 range is never
retried: `shouldRetry` is false at every attempt index, and the pipeline
performs exactly 1 physical attempt and 0 backoff sleeps before throwing
the error, for every configured retries budget. -/
theorem client_4xx_single_attempt {T : Type} (exec : Nat → AttemptResult T)
    (retries : Nat) (e : ErrInfo) (s : Nat)
    (hfe : e.isFetchError = true) (hst : e.status = some s)
    (h4 : 400 ≤ s) (h5 : s < 500) (hexec : exec 0 = .failure e) :
    (∀ attempt maxRetries, shouldRetry e attempt maxRetries = false) ∧
    executeWithRetries exec retries = (.threwFetch e, 1, 0) := by
  have hsr := shouldRetry_clientError_false e s hfe hst h4 h5
  refine ⟨hsr, ?_⟩
  unfold executeWithRetries
  simp [retryLoopGo, hexec, hsr 0 retries, finishRetryLoop, hfe]

/-- A normalized HTTP 404 error. -/
def err404 : ErrInfo :=
  { isError := true, name := some "FetchError", isFetchError := true
    dataName := none, status := some 404 }

/-- The attempt oracle that fails every attempt with `err404`. -/
def exec404 : Nat → AttemptResult Unit := fun _ => .failure err404

/-- Witness for C2: with retries = 5 and the first attempt failing with
HTTP 404, exactly one attempt happens and the 404 error is thrown. -/
theorem client_4xx_single_attempt_witness :
    shouldRetry err404 0 5 = false ∧
    executeWithRetries exec404 5 = (.threwFetch err404, 1, 0) := by
  have h := client_4xx_single_attempt exec404 5 err404 404 (by decide) rfl
    (by decide) (by decide) rfl
  exact ⟨h.1 0 5, h.2⟩

/-- C8: the concrete `buildUrl` examples and the general contract: a url
already carrying an http/https scheme is returned unchanged; a non-empty
base is concatenated (trailing slash stripped) with the
leading-slash-normalized path; an empty base returns the path as-is. -/
theorem buildUrl_spec :
    buildUrl "/x" "https://a.com/" = "https://a.com/x" ∧
    buildUrl "/x" "https://a.com" = "https://a.com/x" ∧
    buildUrl "https://b.com/y" "https://a.com" = "https://b.com/y" ∧
    (∀ url base : String,
      (strStartsWith url schemeHttp || strStartsWith url schemeHttps) = true →
      buildUrl url base = url) ∧
    (∀ url base : String,
      (strStartsWith url schemeHttp || strStartsWith url schemeHttps) = false →
      base ≠ "" →
      buildUrl url base =
        (if strEndsWith base "/" then dropLastChar base else base) ++
        (if strStartsWith url "/" then url else "/" ++ url)) ∧
    (∀ url : String,
      (strStartsWith url schemeHttp || strStartsWith url schemeHttps) = false →
      buildUrl url "" = url) := by
  refine ⟨by decide, by decide, by decide, ?_, ?_, ?_⟩
  · intro url base h
    simp [buildUrl, h]
  · intro url base h hb
    simp [buildUrl, h, hb]
  · intro url h
    simp [buildUrl, h]

/-- Witness for C8: the general scheme clause applied at a concrete
absolute url over a non-empty base. -/
theorem buildUrl_spec_witness :
    (strStartsWith "http://q" schemeHttp || strStartsWith "http://q" schemeHttps) = true ∧
    buildUrl "http://q" "https://a.com" = "http://q" :=
  ⟨by decide, buildUrl_spec.2.2.2.1 "http://q" "https://a.com" (by decide)⟩

/-! ## RateLimiter (src/src/utils/RateLimiter.ts)

The token bucket state and `calculateDelay`.  JS numbers are modelled as
rationals; `Date.now()` is passed in explicitly as `now`.  The method
both returns the delay and mutates the instance, so the model returns the
delay together with the updated state.
-/

/-- The fields of a `RateLimiter` instance. -/
structure RateLimiterState where
  startTime : ℚ
  transferredBytes : ℚ
  tokens : ℚ
  maxTokens : ℚ
  refillRate : ℚ
  deriving DecidableEq, Repr

/-- Model of `reset()` (also the constructor): clears everything and
records the start time. -/
def resetLimiter (now : ℚ) : RateLimiterState :=
  { startTime := now, transferredBytes := 0, tokens := 0, maxTokens := 0, refillRate := 0 }

/-- Model of `calculateDelay(bytesToTransfer, maxRateBps)`: returns 0 for
a non-positive rate; otherwise lazily initializes the bucket, refills it
from the elapsed time capped at `maxTokens`, and either consumes the
tokens (0 delay) or returns the refill time for the missing tokens capped
at 2000 ms, emptying the bucket. -/
def calculateDelay (s : RateLimiterState) (now bytesToTransfer maxRateBps : ℚ) :
    ℚ × RateLimiterState :=
  if maxRateBps ≤ 0 then
    (0, s)
  else
    let elapsedMs := now - s.startTime
    let maxTokens := if s.maxTokens = 0 then min (maxRateBps / 4) 256 else s.maxTokens
    let tokens0 := if s.maxTokens = 0 then min (maxRateBps / 4) 256 else s.tokens
    let refillRate := if s.maxTokens = 0 then maxRateBps / 1000 else s.refillRate
    let tokensToAdd := elapsedMs * refillRate
    let tokens1 := min maxTokens (tokens0 + tokensToAdd)
    if bytesToTransfer ≤ tokens1 then
      (0, { s with maxTokens := maxTokens, refillRate := refillRate,
                   tokens := tokens1 - bytesToTransfer,
                   transferredBytes := s.transferredBytes + bytesToTransfer })
    else
      let tokensNeeded := bytesToTransfer - tokens1
      let delayMs := tokensNeeded / refillRate
      (min delayMs 2000,
       { s with maxTokens := maxTokens, refillRate := refillRate, tokens := 0,
                transferredBytes := s.transferredBytes + bytesToTransfer })

/-- C9: starting from an uninitialized (empty) bucket in the same state,
with a positive rate and a non-negative byte count, the delay computed
for `2 * b` bytes is never smaller than the delay computed for `b` bytes,
including under the 2000 ms cap. -/
theorem calculateDelay_monotone (s : RateLimiterState) (now b r : ℚ)
    (hfresh : s.maxTokens = 0) (hr : 0 < r) (hb : 0 ≤ b) :
    (calculateDelay s now b r).1 ≤ (calculateDelay s now (2 * b) r).1 := by
  have hr' : ¬ (r ≤ 0) := not_le.mpr hr
  have hrr : (0 : ℚ) < r / 1000 := by positivity
  unfold calculateDelay
  rw [if_neg hr', if_neg hr']
  simp only [hfresh, eq_self_iff_true, if_true]
  split_ifs with h1 h2 h2
  · exact le_rfl
  · refine le_min (div_nonneg (by linarith) (le_of_lt hrr)) (by norm_num)
  · exact absurd (by linarith : b ≤ min (min (r / 4) 256)
      (min (r / 4) 256 + (now - s.startTime) * (r / 1000))) h1
  · exact min_le_min ((div_le_div_iff_of_pos_right hrr).mpr (by linarith)) le_rfl

/-- A freshly reset rate limiter started at time 0. -/
def freshLimiter : RateLimiterState := resetLimiter 0

/-- Witness for C9: a concrete empty bucket, rate 1000 B/s and 100
bytes. -/
theorem calculateDelay_monotone_witness :
    freshLimiter.maxTokens = 0 ∧ (0 : ℚ) < 1000 ∧ (0 : ℚ) ≤ 100 ∧
    (calculateDelay freshLimiter 0 100 1000).1 ≤
      (calculateDelay freshLimiter 0 (2 * 100) 1000).1 :=
  ⟨rfl, by norm_num, by norm_num,
    calculateDelay_monotone freshLimiter 0 100 1000 rfl (by norm_num) (by norm_num)⟩

/-! ## String helpers shared by the parser, balancer and stream models -/

/-- Whitespace recognized by the JS `trim()` model. -/
def isWSChar (c : Char) : Bool :=
  c = ' ' || c = '\t' || c = '\n' || c = '\r' || c = '\x0b' || c = '\x0c'

/-- Model of JS `trim()` on a character list: strip leading and trailing
whitespace. -/
def trimChars (l : List Char) : List Char :=
  ((l.dropWhile isWSChar).reverse.dropWhile isWSChar).reverse

/-- Model of JS `trim()` on strings. -/
def strTrim (s : String) : String := String.mk (trimChars s.data)

/-- Helper for the JS `String.prototype.includes` model. -/
def containsSub (pat : List Char) : List Char → Bool
  | [] => pat.isPrefixOf ([] : List Char)
  | c :: rest => pat.isPrefixOf (c :: rest) || containsSub pat rest

/-- Model of JS `String.prototype.includes`. -/
def strContains (s pat : String) : Bool := containsSub pat.data s.data

/-! ## Response parsing dispatch (src/src/utils/Parser.ts and the
success path of `FetchClient.executeRequest`, src/unnamed/part_016,
lines 419-473)

The decoders themselves (`response.json()`, `response.text()`, ...) are
transport collaborators; the model tracks which decoder the dispatch
selects, which is all C7 needs.
-/

/-- The `responseType` configuration values. -/
inductive RespType where
  | auto
  | json
  | text
  | buffer
  | blob
  deriving DecidableEq, Repr

/-- Which decoding the parser dispatch selects for the caller. -/
inductive ParsedValue where
  | undefinedBody
  | jsonWithFallback
  | textBody
  | bufferBody
  | blobBody
  deriving DecidableEq, Repr

/-- Model of `isJsonContentType`: the header contains
`application/json`. -/
def isJsonContentType (ct : Option String) : Bool :=
  match ct with
  | some c => strContains c "application/json"
  | none => false

/-- Model of `isTextContentType`: the header contains `text/`. -/
def isTextContentType (ct : Option String) : Bool :=
  match ct with
  | some c => strContains c "text/"
  | none => false

/-- Model of `parseByContentType(response, contentType, method)`. -/
def parseByContentType (method ct : Option String) : ParsedValue :=
  if method = some "HEAD" then .undefinedBody
  else if isJsonContentType ct then .jsonWithFallback
  else if isTextContentType ct then .textBody
  else .bufferBody

/-- Model of `parseResponseByType(response, config, method)`: HEAD is
short-circuited to undefined, an explicit response type picks its
decoder, `auto` defers to content negotiation. -/
def parseResponseByType (rt : RespType) (method ct : Option String) : ParsedValue :=
  if method = some "HEAD" then .undefinedBody
  else
    match rt with
    | .json => .jsonWithFallback
    | .text => .textBody
    | .buffer => .bufferBody
    | .blob => .blobBody
    | .auto => parseByContentType method ct

/-- What the success path of `executeRequest` hands back to the retry
loop. -/
inductive SuccessData where
  | streamIter
  | downloadInfo
  | undefinedBody
  | parsed (v : ParsedValue)
  deriving DecidableEq, Repr

/-- The configuration fields the success path of `executeRequest`
consults. -/
structure ExecConfig where
  stream : Bool
  download : Bool
  responseType : RespType
  hasOnProgress : Bool
  deriving DecidableEq, Repr

/-- Model of the success path of `FetchClient.executeRequest`
(src/unnamed/part_016): after `response.ok`, a streaming config returns
the lazy iterator, a download config saves and returns download info,
HEAD/OPTIONS return undefined data, and anything else is parsed through
`parseResponseWithProgress` (which uses `auto` content negotiation when
a progress callback is present, else the configured response type). -/
def executeRequestSuccess (method : String) (cfg : ExecConfig) (ct : Option String) :
    SuccessData :=
  if cfg.stream then .streamIter
  else if cfg.download then .downloadInfo
  else if method = "HEAD" || method = "OPTIONS" then .undefinedBody
  else .parsed
    (if cfg.hasOnProgress then parseResponseByType .auto (some method) ct
     else parseResponseByType cfg.responseType (some method) ct)

/-- C7: for a successful HEAD or OPTIONS request (with the default
non-stream, non-download mode), the data handed back to the caller is
undefined, for every content type and every configured response type. -/
theorem head_options_body_undefined (method : String) (cfg : ExecConfig)
    (ct : Option String) (hm : method = "HEAD" ∨ method = "OPTIONS")
    (hs : cfg.stream = false) (hd : cfg.download = false) :
    executeRequestSuccess method cfg ct = .undefinedBody := by
  rcases hm with h | h <;> simp [executeRequestSuccess, hs, hd, h]

/-- A non-default parsing configuration used in the C7 witness. -/
def jsonCfg : ExecConfig :=
  { stream := false, download := false, responseType := .json, hasOnProgress := false }

/-- Witness for C7: an OPTIONS request with an explicit `json` response
type and a JSON content type still yields undefined data. -/
theorem head_options_body_undefined_witness :
    ("OPTIONS" = "HEAD" ∨ "OPTIONS" = "OPTIONS") ∧
    jsonCfg.stream = false ∧ jsonCfg.download = false ∧
    executeRequestSuccess "OPTIONS" jsonCfg (some "application/json") =
      .undefinedBody :=
  ⟨Or.inr rfl, rfl, rfl,
    head_options_body_undefined "OPTIONS" jsonCfg (some "application/json")
      (Or.inr rfl) rfl rfl⟩

/-! ## BalancerHandler (src/unnamed/part_016, lines 15-178) -/

/-- Model of `BalancerHandler.buildFullUrl(endpoint, url)`. -/
def buildFullUrl (endpoint url : String) : String :=
  let baseUrl := if strEndsWith endpoint "/" then dropLastChar endpoint else endpoint
  if url = "" || strTrim url = "" then baseUrl
  else if strStartsWith url "http://" || strStartsWith url "https://" then url
  else baseUrl ++ (if strStartsWith url "/" then url else "/" ++ url)

/-- Checks whether an attempt result is a success. -/
def AttemptResult.isSuccess {T : Type} : AttemptResult T → Bool
  | .success _ => true
  | .failure _ => false

/-- Outcome of the `fastest` strategy. -/
inductive FastestOutcome (T : Type) where
  | ok (data : T)
  | threwLast (error : ErrInfo)
  | threwAggregate (errors : List (String × ErrInfo))
  deriving DecidableEq, Repr

/-- Model of the throw after the `fastest` loop exhausts all endpoints:
the last failure is rethrown when it is a `FetchError`, otherwise an
aggregate error carrying every per-endpoint failure is thrown. -/
def finishFastest {T : Type} (errors : List (String × ErrInfo)) : FastestOutcome T :=
  match errors.getLast? with
  | some last => if last.2.isFetchError then .threwLast last.2 else .threwAggregate errors
  | none => .threwAggregate errors

/-- The `for (const endpoint of config.endpoints)` loop of
`executeFastestStrategy`, carrying the accumulated per-endpoint errors.
Also records, in order, the full URLs actually requested. -/
def fastestGo {T : Type} (exec : String → AttemptResult T) (url : String)
    (errors : List (String × ErrInfo)) :
    List String → FastestOutcome T × List String
  | [] => (finishFastest errors, [])
  | ep :: rest =>
    let fullUrl := buildFullUrl ep url
    match exec fullUrl with
    | .success d => (.ok d, [fullUrl])
    | .failure err =>
      let r := fastestGo exec url (errors ++ [(ep, err)]) rest
      (r.1, fullUrl :: r.2)

/-- Model of `BalancerHandler.executeFastestStrategy`. -/
def executeFastestStrategy {T : Type} (exec : String → AttemptResult T) (url : String)
    (endpoints : List String) : FastestOutcome T × List String :=
  fastestGo exec url [] endpoints

/-- The per-endpoint failure list the strategies accumulate. -/
def errListOf {T : Type} (exec : String → AttemptResult T) (url : String)
    (endpoints : List String) : List (String × ErrInfo) :=
  endpoints.map (fun ep => (ep, (exec (buildFullUrl ep url)).errorOf))

/-- Helper: a prefix of failing endpoints followed by a succeeding one
makes `fastestGo` return that success having requested exactly the
prefix and the succeeding endpoint, for any accumulated errors. -/
theorem fastestGo_first_success {T : Type} (exec : String → AttemptResult T)
    (url : String) (ep : String) (post : List String) (d : T) :
    ∀ pre acc, (∀ p ∈ pre, (exec (buildFullUrl p url)).isFailure = true) →
      exec (buildFullUrl ep url) = .success d →
      fastestGo exec url acc (pre ++ ep :: post) =
        (.ok d, (pre ++ [ep]).map (fun p => buildFullUrl p url)) := by
  intro pre
  induction pre with
  | nil =>
    intro acc _ hep
    simp [fastestGo, hep]
  | cons p pre ih =>
    intro acc hpre hep
    have hp : (exec (buildFullUrl p url)).isFailure = true := hpre p (by simp)
    rcases hre : exec (buildFullUrl p url) with d' | e'
    · rw [hre] at hp
      simp [AttemptResult.isFailure] at hp
    · have ihr := ih (acc ++ [(p, e')]) (fun q hq => hpre q (by simp [hq])) hep
      simp [fastestGo, hre, ihr]

/-- Helper: when every endpoint fails, `fastestGo` requests all of them
in order and finishes with the accumulated failures. -/
theorem fastestGo_all_fail {T : Type} (exec : String → AttemptResult T) (url : String) :
    ∀ endpoints acc, (∀ p ∈ endpoints, (exec (buildFullUrl p url)).isFailure = true) →
      fastestGo exec url acc endpoints =
        (finishFastest (acc ++ errListOf exec url endpoints),
         endpoints.map (fun p => buildFullUrl p url)) := by
  intro endpoints
  induction endpoints with
  | nil => intro acc _; simp [fastestGo, errListOf]
  | cons p rest ih =>
    intro acc hall
    have hp : (exec (buildFullUrl p url)).isFailure = true := hall p (by simp)
    rcases hre : exec (buildFullUrl p url) with d' | e'
    · rw [hre] at hp
      simp [AttemptResult.isFailure] at hp
    · have ihr := ih (acc ++ [(p, e')]) (fun q hq => hall q (by simp [hq]))
      simp only [fastestGo, hre, ihr, errListOf, List.map_cons]
      simp [AttemptResult.errorOf, hre, List.append_assoc]

/-- C5: the `fastest` strategy requests endpoints strictly in input
order; the first success is returned and no endpoint after it is
requested; when every endpoint fails, all endpoints are requested and
the last failure is rethrown when it is a normalized `FetchError`, else
an aggregate error listing every per-endpoint failure is thrown. -/
theorem balancer_fastest_spec {T : Type} (exec : String → AttemptResult T)
    (url : String) :
    (∀ pre ep post (d : T),
      (∀ p ∈ pre, (exec (buildFullUrl p url)).isFailure = true) →
      exec (buildFullUrl ep url) = .success d →
      executeFastestStrategy exec url (pre ++ ep :: post) =
        (.ok d, (pre ++ [ep]).map (fun p => buildFullUrl p url))) ∧
    (∀ endpoints, (∀ p ∈ endpoints, (exec (buildFullUrl p url)).isFailure = true) →
      executeFastestStrategy exec url endpoints =
        (finishFastest (errListOf exec url endpoints),
         endpoints.map (fun p => buildFullUrl p url))) := by
  constructor
  · intro pre ep post d hpre hep
    exact fastestGo_first_success exec url ep post d pre [] hpre hep
  · intro endpoints hall
    have h := fastestGo_all_fail exec url endpoints [] hall
    simpa [executeFastestStrategy] using h

/-- The attempt oracle used in the balancer witnesses: the good endpoint
succeeds with 42, everything else fails with a 503. -/
def balancerDemoExec : String → AttemptResult Nat := fun u =>
  if u = "https://good.com/x" then .success 42 else .failure err503

/-- Witness for C5: endpoints bad then good; the good endpoint's data is
returned and both endpoints (and only they) are requested, in order. -/
theorem balancer_fastest_spec_witness :
    executeFastestStrategy balancerDemoExec "/x" ["https://bad.com", "https://good.com"] =
      (.ok 42, ["https://bad.com/x", "https://good.com/x"]) := by
  have h := (balancer_fastest_spec balancerDemoExec "/x").1 ["https://bad.com"]
    "https://good.com" [] 42 (by decide) (by decide)
  exact h.trans (by decide)

/-- Outcome of the `parallel` strategy. -/
inductive ParallelOutcome (T : Type) where
  | ok (data : List T)
  | threwAggregate (errors : List (String × ErrInfo))
  deriving DecidableEq, Repr

/-- The settled per-endpoint result of the `parallel` strategy. -/
inductive BalResult (T : Type) where
  | ok (data : T) (endpoint : String)
  | err (error : ErrInfo) (endpoint : String)
  deriving DecidableEq, Repr

/-- Model of `BalancerHandler.executeParallelStrategy`: every endpoint is
requested, the settled results are collected, the successes are filtered
out and their data returned; with zero successes an aggregate error
carrying one failure per endpoint is thrown. -/
def executeParallelStrategy {T : Type} (exec : String → AttemptResult T) (url : String)
    (endpoints : List String) : ParallelOutcome T :=
  let results := endpoints.map (fun ep =>
    match exec (buildFullUrl ep url) with
    | .success d => BalResult.ok d ep
    | .failure e => BalResult.err e ep)
  let successfulResults := results.filterMap (fun r =>
    match r with
    | .ok d ep => some (d, ep)
    | .err _ _ => none)
  if successfulResults.length = 0 then
    .threwAggregate (results.filterMap (fun r =>
      match r with
      | .ok _ _ => none
      | .err e ep => some (ep, e)))
  else
    .ok (successfulResults.map (fun p => p.1))

/-- Helper: the length of a `filterMap` is the count of elements on
which the function returns a value. -/
theorem length_filterMap_eq_countP {α β : Type} (f : α → Option β) :
    ∀ l : List α, (l.filterMap f).length = l.countP (fun a => (f a).isSome) := by
  intro l
  induction l with
  | nil => simp
  | cons a l ih =>
    cases hfa : f a <;> simp [List.filterMap_cons, hfa, List.countP_cons, ih]

/-- Helper: `filterMap` only depends on the function's values on the
list. -/
theorem filterMap_congr_mem {α β : Type} (f g : α → Option β) :
    ∀ l : List α, (∀ a ∈ l, f a = g a) → l.filterMap f = l.filterMap g := by
  intro l
  induction l with
  | nil => intro _; rfl
  | cons a l ih =>
    intro h
    have ha := h a (by simp)
    have hl := ih (fun b hb => h b (by simp [hb]))
    simp [List.filterMap_cons, ha, hl]

/-- C6: the `parallel` strategy returns exactly one data entry per
endpoint whose request succeeded (as soon as at least one succeeded),
and with zero successes throws an aggregate error whose detail lists
exactly one failure per endpoint. -/
theorem balancer_parallel_spec {T : Type} (exec : String → AttemptResult T)
    (url : String) :
    (∀ endpoints : List String,
      0 < endpoints.countP (fun ep => (exec (buildFullUrl ep url)).isSuccess) →
      executeParallelStrategy exec url endpoints =
        .ok (endpoints.filterMap (fun ep =>
          match exec (buildFullUrl ep url) with
          | .success d => some d
          | .failure _ => none)) ∧
      (endpoints.filterMap (fun ep =>
          match exec (buildFullUrl ep url) with
          | .success d => some d
          | .failure _ => none)).length =
        endpoints.countP (fun ep => (exec (buildFullUrl ep url)).isSuccess)) ∧
    (∀ endpoints : List String,
      (∀ ep ∈ endpoints, (exec (buildFullUrl ep url)).isFailure = true) →
      executeParallelStrategy exec url endpoints =
        .threwAggregate (errListOf exec url endpoints) ∧
      (errListOf exec url endpoints).length = endpoints.length) := by
  constructor
  · intro endpoints hpos
    have hdata : ∀ ep ∈ endpoints,
        ((match exec (buildFullUrl ep url) with
          | .success d => some (d, ep)
          | .failure _ => none) : Option (T × String)).map Prod.fst =
        (match exec (buildFullUrl ep url) with
         | .success d => some d
         | .failure _ => none) := by
      intro ep _
      cases exec (buildFullUrl ep url) <;> rfl
    have hsome : ∀ ep ∈ endpoints,
        ((match exec (buildFullUrl ep url) with
          | .success d => some (d, ep)
          | .failure _ => none) : Option (T × String)).isSome =
        (exec (buildFullUrl ep url)).isSuccess := by
      intro ep _
      cases exec (buildFullUrl ep url) <;> rfl
    have hlen : (endpoints.filterMap (fun ep =>
        match exec (buildFullUrl ep url) with
        | .success d => some (d, ep)
        | .failure _ => none)).length =
        endpoints.countP (fun ep => (exec (buildFullUrl ep url)).isSuccess) := by
      rw [length_filterMap_eq_countP]
      exact List.countP_congr (fun ep hep => by rw [hsome ep hep])
    have hcomp1 : (endpoints.map (fun ep =>
        match exec (buildFullUrl ep url) with
        | .success d => BalResult.ok d ep
        | .failure e => BalResult.err e ep)).filterMap (fun r =>
          match r with
          | .ok d ep => some (d, ep)
          | .err _ _ => none) =
        endpoints.filterMap (fun ep =>
          match exec (buildFullUrl ep url) with
          | .success d => some (d, ep)
          | .failure _ => none) := by
      rw [List.filterMap_map]
      exact filterMap_congr_mem _ _ endpoints
        (fun ep _ => by cases hre : exec (buildFullUrl ep url) <;> simp [hre])
    constructor
    · have hne : ¬ ((endpoints.filterMap (fun ep =>
          match exec (buildFullUrl ep url) with
          | .success d => some (d, ep)
          | .failure _ => none)).length = 0) := by
        rw [hlen]; omega
      simp only [executeParallelStrategy]
      rw [hcomp1, if_neg hne, List.map_filterMap]
      congr 1
      exact filterMap_congr_mem _ _ endpoints hdata
    · have hlen2 : (endpoints.filterMap (fun ep =>
          match exec (buildFullUrl ep url) with
          | .success d => some d
          | .failure _ => none)).length =
          endpoints.countP (fun ep => (exec (buildFullUrl ep url)).isSuccess) := by
        rw [length_filterMap_eq_countP]
        refine List.countP_congr (fun ep hep => ?_)
        cases exec (buildFullUrl ep url) <;> rfl
      exact hlen2
  · intro endpoints hall
    have hnone : ∀ ep ∈ endpoints,
        ((match exec (buildFullUrl ep url) with
          | .success d => some (d, ep)
          | .failure _ => none) : Option (T × String)) = none := by
      intro ep hep
      have := hall ep hep
      cases hre : exec (buildFullUrl ep url)
      · rw [hre] at this; simp [AttemptResult.isFailure] at this
      · rfl
    have herr : endpoints.filterMap (fun ep =>
        match exec (buildFullUrl ep url) with
        | .success _ => none
        | .failure e => some (ep, e)) = errListOf exec url endpoints := by
      induction endpoints with
      | nil => rfl
      | cons p rest ih =>
        have hp := hall p (by simp)
        rcases hre : exec (buildFullUrl p url) with d | e
        · rw [hre] at hp; simp [AttemptResult.isFailure] at hp
        · have ihr := ih (fun q hq => hall q (by simp [hq]))
            (fun q hq => hnone q (by simp [hq]))
          simp [List.filterMap_cons, hre, errListOf, AttemptResult.errorOf, ihr]
    have hcomp1 : (endpoints.map (fun ep =>
        match exec (buildFullUrl ep url) with
        | .success d => BalResult.ok d ep
        | .failure e => BalResult.err e ep)).filterMap (fun r =>
          match r with
          | .ok d ep => some (d, ep)
          | .err _ _ => none) =
        endpoints.filterMap (fun ep =>
          match exec (buildFullUrl ep url) with
          | .success d => some (d, ep)
          | .failure _ => none) := by
      rw [List.filterMap_map]
      exact filterMap_congr_mem _ _ endpoints
        (fun ep _ => by cases hre : exec (buildFullUrl ep url) <;> simp [hre])
    have hcomp2 : (endpoints.map (fun ep =>
        match exec (buildFullUrl ep url) with
        | .success d => BalResult.ok d ep
        | .failure e => BalResult.err e ep)).filterMap (fun r =>
          match r with
          | .ok _ _ => none
          | .err e ep => some (ep, e)) =
        endpoints.filterMap (fun ep =>
          match exec (buildFullUrl ep url) with
          | .success _ => none
          | .failure e => some (ep, e)) := by
      rw [List.filterMap_map]
      exact filterMap_congr_mem _ _ endpoints
        (fun ep _ => by cases hre : exec (buildFullUrl ep url) <;> simp [hre])
    constructor
    · have hzero : (endpoints.filterMap (fun ep =>
          match exec (buildFullUrl ep url) with
          | .success d => some (d, ep)
          | .failure _ => none)).length = 0 := by
        rw [List.length_eq_zero, List.filterMap_eq_nil_iff]
        exact hnone
      simp only [executeParallelStrategy]
      rw [hcomp1, if_pos hzero, hcomp2, herr]
    · simp [errListOf]

/-- The attempt oracle used in the C6 witness: endpoints whose full url
starts with `https://good` succeed with 7, the rest fail with a 503. -/
def parallelDemoExec : String → AttemptResult Nat := fun u =>
  if strStartsWith u "https://good" then .success 7 else .failure err503

/-- Witness for C6: one bad and two good endpoints yield exactly the two
successful results. -/
theorem balancer_parallel_spec_witness :
    executeParallelStrategy parallelDemoExec "/x"
      ["https://bad.com", "https://good1.com", "https://good2.com"] = .ok [7, 7] := by
  have h := (balancer_parallel_spec parallelDemoExec "/x").1
    ["https://bad.com", "https://good1.com", "https://good2.com"] (by decide)
  exact h.1.trans (by decide)

/-! ## ForwarderHandler (src/unnamed/part_021) and the orchestrator tail
(src/unnamed/part_017 `request`)

URL syntax validation (`isValidURL`, built on the host `URL` parser) is a
collaborator, passed in as `validURL`.  Each forwarder's transport
attempts are an oracle `execs`, indexed per forwarder and per attempt;
forwarders run through the same `executeWithRetries` loop as the primary
request, with the forwarder defaults for a missing retries budget.
-/

/-- The configuration of one forwarder endpoint (the fields the
dispatch logic consults). -/
structure ForwarderEndpoint where
  url : String
  retries : Option Nat
  timeout : Option Nat
  deriving DecidableEq, Repr

/-- The forwarder configuration: a list of endpoints. -/
structure ForwarderConfig where
  forwarders : List ForwarderEndpoint
  deriving DecidableEq, Repr

/-- The `forwarderDefaults.RETRIES` constant. -/
def forwarderDefaultRetries : Nat := 3

/-- The two validation failures `validateForwarderConfig` can throw. -/
inductive ForwarderValidationError where
  | endpointsRequired
  | invalidEndpointUrl (url : String)
  deriving DecidableEq, Repr

/-- Model of `ForwarderHandler.validateForwarderConfig`: an empty
forwarder list throws, then the first syntactically invalid URL
throws. -/
def validateForwarderConfig (validURL : String → Bool) (config : ForwarderConfig) :
    Option ForwarderValidationError :=
  if config.forwarders.length = 0 then some .endpointsRequired
  else
    (config.forwarders.find? (fun f => !(validURL f.url))).map
      (fun f => .invalidEndpointUrl f.url)

/-- The settled result recorded (and logged) for one forwarder. -/
structure ForwarderResult where
  endpoint : String
  success : Bool
  error : Option ErrInfo
  deriving DecidableEq, Repr

/-- Model of `executeForwarderWithRetries`: the forwarder's attempts run
through `RetryHandler.executeWithRetries` with the forwarder's retries
budget (defaulting to the forwarder default), and any throw is caught
into a failed result. -/
def executeForwarderWithRetries (execs : ForwarderEndpoint → Nat → AttemptResult Unit)
    (f : ForwarderEndpoint) : Bool × Option ErrInfo :=
  match (executeWithRetries (execs f) (f.retries.getD forwarderDefaultRetries)).1 with
  | .returned _ => (true, none)
  | .threwFetch e => (false, some e)
  | .threwWrapped le => (false, le)

/-- Model of `ForwarderHandler.forwardResponse`: validation may throw;
otherwise every forwarder's dispatch is wrapped so its failure is
recorded, the settled results are only logged, and the returned promise
resolves immediately with undefined.  The result carries the settled
per-forwarder results (observable only through logging) alongside the
resolved unit value. -/
def forwardResponse (validURL : String → Bool)
    (execs : ForwarderEndpoint → Nat → AttemptResult Unit)
    (config : ForwarderConfig) :
    Except ForwarderValidationError (Unit × List ForwarderResult) :=
  match validateForwarderConfig validURL config with
  | some e => .error e
  | none =>
    .ok ((), config.forwarders.map (fun f =>
      let r := executeForwarderWithRetries execs f
      { endpoint := f.url, success := r.1, error := r.2 }))

/-- Model of the tail of `FetchClient.request` (src/unnamed/part_017):
once the primary response is resolved, a present non-empty forwarder
list is validated (a validation failure throws before the response is
returned) and then fire-and-forget forwarded; the resolved primary
value is returned unchanged. -/
def finishWithForwarders {T : Type} (validURL : String → Bool)
    (execs : ForwarderEndpoint → Nat → AttemptResult Unit)
    (response : T) (forwarder : Option (List ForwarderEndpoint)) :
    Except ForwarderValidationError T :=
  match forwarder with
  | some fwd =>
    if 0 < fwd.length then
      match validateForwarderConfig validURL { forwarders := fwd } with
      | some e => .error e
      | none =>
        match forwardResponse validURL execs { forwarders := fwd } with
        | .error e => .error e
        | .ok _ => .ok response
    else .ok response
  | none => .ok response

/-- Helper: a non-empty forwarder list of valid URLs passes
validation. -/
theorem validateForwarderConfig_ok (validURL : String → Bool)
    (config : ForwarderConfig) (hne : config.forwarders ≠ [])
    (hvalid : ∀ f ∈ config.forwarders, validURL f.url = true) :
    validateForwarderConfig validURL config = none := by
  unfold validateForwarderConfig
  rw [if_neg (by simpa [List.length_eq_zero] using hne)]
  have : config.forwarders.find? (fun f => !(validURL f.url)) = none := by
    rw [List.find?_eq_none]
    intro f hf
    simp [hvalid f hf]
  rw [this]
  rfl

/-- C4: a forwarder configuration with a non-empty list of
syntactically valid URLs makes `forwardResponse` resolve without error
for every combination of per-forwarder outcomes, and the primary
request's returned value is unchanged by any forwarder outcome; an
invalid configuration instead throws its validation error before the
primary response is returned. -/
theorem forwarder_isolation (validURL : String → Bool) :
    (∀ (execs : ForwarderEndpoint → Nat → AttemptResult Unit) (config : ForwarderConfig),
      config.forwarders ≠ [] →
      (∀ f ∈ config.forwarders, validURL f.url = true) →
      forwardResponse validURL execs config =
        .ok ((), config.forwarders.map (fun f =>
          let r := executeForwarderWithRetries execs f
          { endpoint := f.url, success := r.1, error := r.2 }))) ∧
    (∀ (execs : ForwarderEndpoint → Nat → AttemptResult Unit) (config : ForwarderConfig)
      (e : ForwarderValidationError),
      validateForwarderConfig validURL config = some e →
      forwardResponse validURL execs config = .error e) ∧
    (∀ (T : Type) (execs : ForwarderEndpoint → Nat → AttemptResult Unit)
      (response : T) (fwd : List ForwarderEndpoint),
      fwd ≠ [] → (∀ f ∈ fwd, validURL f.url = true) →
      finishWithForwarders validURL execs response (some fwd) = .ok response) := by
  refine ⟨?_, ?_, ?_⟩
  · intro execs config hne hvalid
    unfold forwardResponse
    rw [validateForwarderConfig_ok validURL config hne hvalid]
  · intro execs config e he
    unfold forwardResponse
    rw [he]
  · intro T execs response fwd hne hvalid
    have hv : validateForwarderConfig validURL { forwarders := fwd } = none :=
      validateForwarderConfig_ok validURL ⟨fwd⟩ hne hvalid
    have hlen : 0 < fwd.length := by
      cases fwd with
      | nil => exact absurd rfl hne
      | cons a l => simp
    simp only [finishWithForwarders]
    rw [if_pos hlen]
    unfold forwardResponse
    rw [hv]

/-- The URL validator accepting everything, for the C4 witness. -/
def allValidURL : String → Bool := fun _ => true

/-- The forwarder attempt oracle failing every attempt, for the C4
witness. -/
def forwarderAllFail : ForwarderEndpoint → Nat → AttemptResult Unit :=
  fun _ => failAll const503

/-- A one-endpoint forwarder configuration, for the C4 witness. -/
def demoForwarderConfig : ForwarderConfig :=
  { forwarders := [{ url := "https://f.com", retries := none, timeout := none }] }

/-- Witness for C4: with one forwarder endpoint whose every attempt
fails, `forwardResponse` still resolves (the failure being only
recorded in its settled results) and the primary value is returned
unchanged. -/
theorem forwarder_isolation_witness :
    forwardResponse allValidURL forwarderAllFail demoForwarderConfig =
      .ok ((), [{ endpoint := "https://f.com", success := false, error := some err503 }]) ∧
    finishWithForwarders allValidURL forwarderAllFail (37 : Nat)
      (some demoForwarderConfig.forwarders) = .ok 37 := by
  have h := forwarder_isolation allValidURL
  refine ⟨?_, ?_⟩
  · exact (h.1 forwarderAllFail demoForwarderConfig (by decide)
      (fun f _ => rfl)).trans rfl
  · exact h.2.2 Nat forwarderAllFail 37 demoForwarderConfig.forwarders
      (by decide) (fun f _ => rfl)

/-! ## Upload progress (src/src/core/Builder.ts, `createBodyWithProgress`,
`processFileEntry`, `processTextEntry`, lines 219-468)

Strings, buffers and files are represented by their encoded byte lists;
a FormData text entry keeps its key and value bytes separately, joined
by the `=` byte exactly as `TextEncoder().encode(key + '=' + value)`
does.  The model computes the list of percentage values passed to the
`onProgress` callback; the byte chunks themselves and the rate limiting
sleeps do not affect those values.
-/

/-- A FormData entry: an attached file or a text field. -/
inductive FormEntry where
  | file (bytes : List Nat)
  | field (keyBytes valBytes : List Nat)
  deriving DecidableEq, Repr

/-- The encoded bytes of one FormData entry (for a field, the encoding
of the template string joining key and value with a 61-byte, `=`). -/
def FormEntry.entryBytes : FormEntry → List Nat
  | .file b => b
  | .field k v => k ++ 61 :: v

/-- The body shapes `createBodyWithProgress` distinguishes. -/
inductive JsBody where
  | str (bytes : List Nat)
  | arrayBuffer (bytes : List Nat)
  | uint8 (bytes : List Nat)
  | blob (bytes : List Nat)
  | formData (entries : List FormEntry)
  | urlParams (bytes : List Nat)
  deriving DecidableEq, Repr

/-- Model of `calculateBodySize`: byte counts for strings and buffers,
the blob's size, and the placeholder 1 for FormData and
URLSearchParams. -/
def calculateBodySize : JsBody → Nat
  | .str b => b.length
  | .arrayBuffer b => b.length
  | .uint8 b => b.length
  | .blob b => b.length
  | .formData _ => 1
  | .urlParams _ => 1

/-- Model of `calculateFormDataSize`: file sizes plus encoded text entry
sizes. -/
def calculateFormDataSize (entries : List FormEntry) : Nat :=
  (entries.map (fun e => e.entryBytes.length)).sum

/-- Model of `convertBodyToBytes`: strings and buffers yield their
bytes; a blob would serialize as the two bytes of an empty JSON object
(unreachable: blobs are chunked on their own path); FormData encodes the
literal string `FormData`; URLSearchParams encodes its serialized
form. -/
def convertBodyToBytes : JsBody → List Nat
  | .str b => b
  | .arrayBuffer b => b
  | .uint8 b => b
  | .blob _ => [123, 125]
  | .formData _ => "FormData".data.map Char.toNat
  | .urlParams b => b

/-- Model of JS `Math.round`: floor of the argument plus one half. -/
def jsRound (x : ℚ) : Int := ⌊x + 1 / 2⌋

/-- The lengths of the successive `slice(i, i + chunkSize)` chunks of a
byte array of length `len` (the first argument is recursion fuel, set to
`len` at the entry point). -/
def chopLensGo (chunkSize : Nat) : Nat → Nat → List Nat
  | 0, _ => []
  | _ + 1, 0 => []
  | fuel + 1, len + 1 => min chunkSize (len + 1) :: chopLensGo chunkSize fuel (len + 1 - chunkSize)

/-- Chunk lengths of the `for (i = 0; i < bytes.length; i += chunkSize)`
loops. -/
def chopLens (chunkSize len : Nat) : List Nat := chopLensGo chunkSize len len

/-- The percentage values reported by a chunked upload loop: after each
chunk the uploaded byte count advances and
`min(round(uploaded / total * 100), 100)` is reported. -/
def progressReports (total : Nat) : List Nat → Nat → List Int
  | [], _ => []
  | c :: rest, uploaded0 =>
    let uploaded := uploaded0 + c
    min (jsRound ((uploaded : ℚ) / (total : ℚ) * 100)) 100 ::
      progressReports total rest uploaded

/-- The percentage values reported by `createFormDataStream`: files are
chunked through `processFileEntry` (one report per chunk), text fields
go through `processTextEntry` (one report each), with the processed byte
count carried across entries. -/
def formDataReports (total chunkSize : Nat) : List FormEntry → Nat → List Int
  | [], _ => []
  | .file bytes :: rest, processed =>
    let lens := chopLens chunkSize bytes.length
    progressReports total lens processed ++
      formDataReports total chunkSize rest (processed + lens.sum)
  | .field k v :: rest, processed =>
    let entry := FormEntry.entryBytes (.field k v)
    let newProcessed := processed + entry.length
    min (jsRound ((newProcessed : ℚ) / (total : ℚ) * 100)) 100 ::
      formDataReports total chunkSize rest newProcessed

/-- Model of the percentage values `createBodyWithProgress` passes to
`onProgress`: blobs are re-measured and chunked, FormData goes through
`createFormDataStream`, and every other body is encoded and chunked
against `calculateBodySize`'s estimate. -/
def createBodyWithProgressReports (body : JsBody) : List Int :=
  match body with
  | .blob bytes =>
    let actualTotalBytes := bytes.length
    let chunkSize := max 1024 (actualTotalBytes / 1000)
    progressReports actualTotalBytes (chopLens chunkSize actualTotalBytes) 0
  | .formData entries =>
    let totalEstimatedBytes := calculateFormDataSize entries
    let chunkSize := max 1024 (totalEstimatedBytes / 1000)
    formDataReports totalEstimatedBytes chunkSize entries 0
  | other =>
    let totalBytes := calculateBodySize other
    let bodyBytes := convertBodyToBytes other
    let chunkSize := max 1024 (totalBytes / 1000)
    progressReports totalBytes (chopLens chunkSize bodyBytes.length) 0

/-- Helper: every chunk-loop report is at most 100. -/
theorem progressReports_le_100 (total : Nat) :
    ∀ lens uploaded0 p, p ∈ progressReports total lens uploaded0 → p ≤ 100 := by
  intro lens
  induction lens with
  | nil => intro uploaded0 p hp; simp [progressReports] at hp
  | cons c rest ih =>
    intro uploaded0 p hp
    simp only [progressReports, List.mem_cons] at hp
    rcases hp with hp | hp
    · rw [hp]; exact min_le_right _ _
    · exact ih _ p hp

/-- Helper: every FormData stream report is at most 100. -/
theorem formDataReports_le_100 (total chunkSize : Nat) :
    ∀ entries processed p, p ∈ formDataReports total chunkSize entries processed →
      p ≤ 100 := by
  intro entries
  induction entries with
  | nil => intro processed p hp; simp [formDataReports] at hp
  | cons e rest ih =>
    intro processed p hp
    cases e with
    | file bytes =>
      simp only [formDataReports, List.mem_append] at hp
      rcases hp with hp | hp
      · exact progressReports_le_100 total _ _ p hp
      · exact ih _ p hp
    | field k v =>
      simp only [formDataReports, List.mem_cons] at hp
      rcases hp with hp | hp
      · rw [hp]; exact min_le_right _ _
      · exact ih _ p hp

/-- C10: every percentage value the upload-progress wrapper passes to
the `onProgress` callback (for every body shape, including the FormData
file and text entry helpers) is an integer at most 100: the computed
rounding is clamped with `min(., 100)` before the callback runs, even
when the estimated total is smaller than the bytes actually enqueued. -/
theorem upload_progress_le_100 (body : JsBody) (p : Int)
    (hp : p ∈ createBodyWithProgressReports body) : p ≤ 100 := by
  cases body with
  | blob bytes => exact progressReports_le_100 _ _ _ p hp
  | formData entries => exact formDataReports_le_100 _ _ _ _ p hp
  | str b => exact progressReports_le_100 _ _ _ p hp
  | arrayBuffer b => exact progressReports_le_100 _ _ _ p hp
  | uint8 b => exact progressReports_le_100 _ _ _ p hp
  | urlParams b => exact progressReports_le_100 _ _ _ p hp

/-- A three-byte URLSearchParams body whose estimated size (the
placeholder 1) undershoots the bytes actually enqueued. -/
def demoParamsBody : JsBody := .urlParams [97, 98, 99]

/-- Witness for C10: the undershooting URLSearchParams body reports
exactly the clamped value 100. -/
theorem upload_progress_le_100_witness :
    (100 : Int) ∈ createBodyWithProgressReports demoParamsBody ∧ (100 : Int) ≤ 100 := by
  have hmem : (100 : Int) ∈ createBodyWithProgressReports demoParamsBody := by
    norm_num [createBodyWithProgressReports, demoParamsBody, convertBodyToBytes,
      calculateBodySize, chopLens, chopLensGo, progressReports, jsRound]
  exact ⟨hmem, upload_progress_le_100 demoParamsBody 100 hmem⟩

/-! ## NDJSON streaming (src/src/core/Fetch.ts `iterateNdjson`,
`yieldCompleteJsonLines` and `safeParseJsonLine`, lines 448-537, also
`StreamHandler` in src/src/core/StreamHandler)

Text chunks arrive already decoded, as character lists; `JSON.parse` is
a collaborator, passed in as `parse`, with `none` modelling a parse
throw.  A run produces the values yielded before completion or failure,
together with the trimmed line (if any) whose parse failure aborted the
iteration with the normalized stream-parse error.

`drainAux` realizes the `while (buffer.indexOf('\n') !== -1)` loop of
`yieldCompleteJsonLines` as one left-to-right scan: `cur` holds the
(reversed) characters read since the last newline; a newline closes the
line (trim it, skip it when empty, parse it, abort on failure), and the
scan ends with the characters after the last newline as the new buffer.
After a parse failure the buffer is dead, so it is returned empty.
-/

/-- The `yieldCompleteJsonLines` loop over one buffer: yielded values,
the aborting trimmed line if a parse failed, and the leftover buffer. -/
def drainAux {V : Type} (parse : List Char → Option V) (cur : List Char) :
    List Char → List V × Option (List Char) × List Char
  | [] => ([], none, cur.reverse)
  | c :: cs =>
    if c = '\n' then
      let t := trimChars cur.reverse
      if t = [] then drainAux parse [] cs
      else
        match parse t with
        | some v =>
          let r := drainAux parse [] cs
          (v :: r.1, r.2.1, r.2.2)
        | none => ([], some t, [])
    else drainAux parse (c :: cur) cs

/-- Model of `iterateNdjson`: each chunk is appended to the buffer and
the complete lines are drained; at stream end the trimmed leftover
buffer, when non-empty, is parsed as a final line. -/
def ndjsonGo {V : Type} (parse : List Char → Option V) (buf : List Char) :
    List (List Char) → List V × Option (List Char)
  | [] =>
    let t := trimChars buf
    if t = [] then ([], none)
    else
      match parse t with
      | some v => ([v], none)
      | none => ([], some t)
  | chunk :: rest =>
    let r := drainAux parse [] (buf ++ chunk)
    match r.2.1 with
    | some t => (r.1, some t)
    | none =>
      let r2 := ndjsonGo parse r.2.2 rest
      (r.1 ++ r2.1, r2.2)

/-- The whole NDJSON iteration of a streamed response delivered as the
given chunks. -/
def ndjsonRun {V : Type} (parse : List Char → Option V) (chunks : List (List Char)) :
    List V × Option (List Char) :=
  ndjsonGo parse [] chunks

/-- Splitting a character list on newlines: `n` newlines yield `n + 1`
pieces, the last being the leftover that carries no newline. -/
def splitLines : List Char → List (List Char)
  | [] => [[]]
  | c :: rest =>
    if c = '\n' then [] :: splitLines rest
    else
      match splitLines rest with
      | [] => [[c]]
      | l :: ls => (c :: l) :: ls

/-- The last piece of a split (the leftover buffer). -/
def lastPart (parts : List (List Char)) : List Char := parts.getLastD []

/-- Line-level reference run over the complete lines: trim, skip the
empties, parse, abort the whole iteration at the first parse failure. -/
def completeRun {V : Type} (parse : List Char → Option V) :
    List (List Char) → List V × Option (List Char)
  | [] => ([], none)
  | l :: ls =>
    let t := trimChars l
    if t = [] then completeRun parse ls
    else
      match parse t with
      | some v =>
        let r := completeRun parse ls
        (v :: r.1, r.2)
      | none => ([], some t)

/-- Line-level reference for a whole stream: all pieces but the last are
complete lines; the trimmed last piece, when non-empty, is parsed as a
trailing line. -/
def ofLines {V : Type} (parse : List Char → Option V) (parts : List (List Char)) :
    List V × Option (List Char) :=
  let r := completeRun parse parts.dropLast
  match r.2 with
  | some t => (r.1, some t)
  | none =>
    let t := trimChars (lastPart parts)
    if t = [] then (r.1, none)
    else
      match parse t with
      | some v => (r.1 ++ [v], none)
      | none => (r.1, some t)

/-- The line-level form of draining one buffer. -/
def drainSpec {V : Type} (parse : List Char → Option V) (full : List Char) :
    List V × Option (List Char) × List Char :=
  let parts := splitLines full
  let r := completeRun parse parts.dropLast
  match r.2 with
  | some t => (r.1, some t, [])
  | none => (r.1, none, lastPart parts)

/-- Helper: a split is never empty. -/
theorem splitLines_ne_nil : ∀ l : List Char, splitLines l ≠ [] := by
  intro l
  cases l with
  | nil => simp [splitLines]
  | cons c rest =>
    by_cases hc : c = '\n'
    · simp [splitLines, hc]
    · simp only [splitLines, if_neg hc]
      cases splitLines rest <;> simp

/-- Helper: a newline-free list splits into itself alone. -/
theorem splitLines_of_noNL : ∀ l : List Char, '\n' ∉ l → splitLines l = [l] := by
  intro l
  induction l with
  | nil => intro _; rfl
  | cons c rest ih =>
    intro h
    have hc : ¬ (c = '\n') := fun hcc => h (by simp [hcc])
    have hr : splitLines rest = [rest] := ih (fun hm => h (by simp [hm]))
    simp [splitLines, hc, hr]

/-- Helper: splitting after a newline-free prefix peels that prefix as
the first piece. -/
theorem splitLines_push (rest : List Char) :
    ∀ pre : List Char, '\n' ∉ pre →
      splitLines (pre ++ '\n' :: rest) = pre :: splitLines rest := by
  intro pre
  induction pre with
  | nil => intro _; simp [splitLines]
  | cons x pre ih =>
    intro h
    have hx : ¬ (x = '\n') := fun hxx => h (by simp [hxx])
    have hr := ih (fun hm => h (by simp [hm]))
    simp [splitLines, hx, hr]

/-- Helper: the last piece ignores a prepended piece when more
follow. -/
theorem lastPart_cons (x : List Char) (parts : List (List Char)) (h : parts ≠ []) :
    lastPart (x :: parts) = lastPart parts := by
  cases parts with
  | nil => exact absurd rfl h
  | cons y ys => simp [lastPart, List.getLastD_cons]

/-- Helper: `dropLast` distributes over a cons with a non-empty tail. -/
theorem dropLast_cons_ne (x : List Char) (parts : List (List Char)) (h : parts ≠ []) :
    (x :: parts).dropLast = x :: parts.dropLast := by
  cases parts with
  | nil => exact absurd rfl h
  | cons y ys => rfl

/-- Helper: the leftover piece of a split carries no newline. -/
theorem noNL_lastPart : ∀ l : List Char, '\n' ∉ lastPart (splitLines l) := by
  intro l
  induction l with
  | nil => simp [splitLines, lastPart, List.getLastD]
  | cons c rest ih =>
    by_cases hc : c = '\n'
    · rw [show splitLines (c :: rest) = [] :: splitLines rest by simp [splitLines, hc],
        lastPart_cons [] (splitLines rest) (splitLines_ne_nil rest)]
      exact ih
    · simp only [splitLines, if_neg hc]
      rcases hx : splitLines rest with _ | ⟨l₀, ls₀⟩
      · exact absurd hx (splitLines_ne_nil rest)
      · cases ls₀ with
        | nil =>
          rw [hx] at ih
          simp only [lastPart, List.getLastD_cons, List.getLastD] at ih ⊢
          intro hmem
          rcases List.mem_cons.mp hmem with h1 | h1
          · exact hc h1.symm
          · exact ih h1
        | cons z zs =>
          rw [hx] at ih
          rw [lastPart_cons (c :: l₀) (z :: zs) (by simp)]
          rw [lastPart_cons l₀ (z :: zs) (by simp)] at ih
          exact ih

/-- Helper: the last piece of a one-piece split. -/
theorem lastPart_singleton (x : List Char) : lastPart [x] = x := by
  simp [lastPart]

/-- Helper: the last piece ignores a prepended chunk of pieces. -/
theorem lastPart_append (P : List (List Char)) (Q : List (List Char)) (h : Q ≠ []) :
    lastPart (P ++ Q) = lastPart Q := by
  induction P with
  | nil => rfl
  | cons x P ih =>
    have hne : P ++ Q ≠ [] := by
      intro hh
      rcases List.append_eq_nil.mp hh with ⟨_, h2⟩
      exact h h2
    rw [List.cons_append, lastPart_cons x (P ++ Q) hne, ih]

/-- Helper: `dropLast` distributes over an append with non-empty right
part. -/
theorem dropLast_append_ne (P : List (List Char)) (Q : List (List Char)) (h : Q ≠ []) :
    (P ++ Q).dropLast = P ++ Q.dropLast := by
  induction P with
  | nil => rfl
  | cons x P ih =>
    have hne : P ++ Q ≠ [] := by
      intro hh
      rcases List.append_eq_nil.mp hh with ⟨_, h2⟩
      exact h h2
    rw [List.cons_append, dropLast_cons_ne x (P ++ Q) hne, ih, List.cons_append]

/-- Helper: a failed complete-line run absorbs anything appended. -/
theorem completeRun_append_err {V : Type} (parse : List Char → Option V)
    (t : List Char) :
    ∀ P X, (completeRun parse P).2 = some t →
      completeRun parse (P ++ X) = ((completeRun parse P).1, some t) := by
  intro P
  induction P with
  | nil => intro X h; simp [completeRun] at h
  | cons l P ih =>
    intro X h
    by_cases ht : trimChars l = []
    · rw [List.cons_append]
      simp only [completeRun, if_pos ht] at h ⊢
      exact ih X h
    · rcases hp : parse (trimChars l) with _ | v
      · rw [List.cons_append]
        simp only [completeRun, if_neg ht, hp] at h ⊢
        injection h with h2
        rw [h2]
      · rw [List.cons_append]
        simp only [completeRun, if_neg ht, hp] at h ⊢
        rw [ih X h]

/-- Helper: an error-free complete-line run composes with anything
appended. -/
theorem completeRun_append_ok {V : Type} (parse : List Char → Option V) :
    ∀ P X, (completeRun parse P).2 = none →
      completeRun parse (P ++ X) =
        ((completeRun parse P).1 ++ (completeRun parse X).1,
         (completeRun parse X).2) := by
  intro P
  induction P with
  | nil => intro X _; simp [completeRun]
  | cons l P ih =>
    intro X h
    by_cases ht : trimChars l = []
    · rw [List.cons_append]
      simp only [completeRun, if_pos ht] at h ⊢
      exact ih X h
    · rcases hp : parse (trimChars l) with _ | v
      · simp only [completeRun, if_neg ht, hp] at h
        exact Option.noConfusion h
      · rw [List.cons_append]
        simp only [completeRun, if_neg ht, hp] at h ⊢
        rw [ih X h]
        simp

/-- Helper: draining a buffer equals the line-level view of that
buffer, for any newline-free partial line already scanned. -/
theorem drainAux_eq {V : Type} (parse : List Char → Option V) :
    ∀ buf cur, '\n' ∉ cur →
      drainAux parse cur buf = drainSpec parse (cur.reverse ++ buf) := by
  intro buf
  induction buf with
  | nil =>
    intro cur hcur
    have hnr : '\n' ∉ cur.reverse := by simpa using hcur
    rw [List.append_nil]
    simp [drainAux, drainSpec, splitLines_of_noNL _ hnr, completeRun, lastPart,
      List.getLastD]
  | cons c cs ih =>
    intro cur hcur
    by_cases hc : c = '\n'
    · subst hc
      have hnr : '\n' ∉ cur.reverse := by simpa using hcur
      have hparts := splitLines_push cs cur.reverse hnr
      have hsne := splitLines_ne_nil cs
      rw [show drainAux parse cur ('\n' :: cs) =
          (if trimChars cur.reverse = [] then drainAux parse [] cs
           else
             match parse (trimChars cur.reverse) with
             | some v =>
               let r := drainAux parse [] cs
               (v :: r.1, r.2.1, r.2.2)
             | none => ([], some (trimChars cur.reverse), [])) from by
        simp [drainAux]]
      simp only [drainSpec, hparts, dropLast_cons_ne _ _ hsne,
        lastPart_cons _ _ hsne]
      by_cases ht : trimChars cur.reverse = []
      · rw [if_pos ht]
        simp only [completeRun, if_pos ht]
        rw [ih [] (by simp)]
        simp [drainSpec]
      · rw [if_neg ht]
        rcases hp : parse (trimChars cur.reverse) with _ | v
        · simp only [completeRun, if_neg ht, hp]
        · simp only [completeRun, if_neg ht, hp]
          rw [ih [] (by simp)]
          simp only [drainSpec, List.nil_append]
          rcases hq : (completeRun parse (splitLines cs).dropLast).2 with _ | t' <;>
            simp [hq]
    · have h2 : '\n' ∉ (c :: cur) := by
        intro hm
        rcases List.mem_cons.mp hm with h | h
        · exact hc h.symm
        · exact hcur h
      have harg : (c :: cur).reverse ++ cs = cur.reverse ++ c :: cs := by
        simp
      rw [show drainAux parse cur (c :: cs) = drainAux parse (c :: cur) cs from by
        simp [drainAux, hc]]
      rw [ih (c :: cur) h2, harg]

/-- Helper: splitting an appended list peels the complete pieces of the
left part and merges its leftover into the right part. -/
theorem splitLines_append : ∀ x y : List Char,
    splitLines (x ++ y) =
      (splitLines x).dropLast ++ splitLines (lastPart (splitLines x) ++ y) := by
  intro x y
  induction x with
  | nil => simp [splitLines, lastPart, List.getLastD]
  | cons c x ih =>
    by_cases hc : c = '\n'
    · subst hc
      rw [List.cons_append]
      rw [show splitLines ('\n' :: (x ++ y)) = [] :: splitLines (x ++ y) from by
        simp [splitLines]]
      rw [ih]
      rw [show splitLines ('\n' :: x) = [] :: splitLines x from by simp [splitLines]]
      rw [dropLast_cons_ne _ _ (splitLines_ne_nil x),
        lastPart_cons _ _ (splitLines_ne_nil x)]
      simp
    · rw [List.cons_append]
      rw [show splitLines (c :: (x ++ y)) =
          (match splitLines (x ++ y) with
           | [] => [[c]]
           | l :: ls => (c :: l) :: ls) from by simp [splitLines, hc]]
      rw [show splitLines (c :: x) =
          (match splitLines x with
           | [] => [[c]]
           | l :: ls => (c :: l) :: ls) from by simp [splitLines, hc]]
      rcases hx : splitLines x with _ | ⟨l₀, ls₀⟩
      · exact absurd hx (splitLines_ne_nil x)
      · cases ls₀ with
        | nil =>
          have hiy : splitLines (x ++ y) = splitLines (l₀ ++ y) := by
            rw [ih, hx]
            simp [lastPart, List.getLastD]
          rw [hiy]
          simp only [List.dropLast, List.nil_append, lastPart_singleton]
          rw [show splitLines ((c :: l₀) ++ y) =
              (match splitLines (l₀ ++ y) with
               | [] => [[c]]
               | l :: ls => (c :: l) :: ls) from by
            rw [List.cons_append]
            simp [splitLines, hc]]
        | cons z zs =>
          rw [ih, hx]
          rw [lastPart_cons l₀ (z :: zs) (by simp)]
          rw [dropLast_cons_ne l₀ (z :: zs) (by simp)]
          simp only [List.cons_append]
          rw [dropLast_cons_ne (c :: l₀) (z :: zs) (by simp),
            lastPart_cons (c :: l₀) (z :: zs) (by simp)]
          rw [List.cons_append]

/-- Helper: the stream view of an error-free block of complete lines
followed by more pieces. -/
theorem ofLines_append_ok {V : Type} (parse : List Char → Option V)
    (P Q : List (List Char)) (hQ : Q ≠ [])
    (h : (completeRun parse P).2 = none) :
    ofLines parse (P ++ Q) =
      ((completeRun parse P).1 ++ (ofLines parse Q).1, (ofLines parse Q).2) := by
  simp only [ofLines]
  rw [dropLast_append_ne _ _ hQ, completeRun_append_ok parse P _ h,
    lastPart_append _ _ hQ]
  rcases hs : (completeRun parse Q.dropLast).2 with _ | t'
  · simp only [hs]
    by_cases ht : trimChars (lastPart Q) = []
    · simp [ht]
    · rcases hp : parse (trimChars (lastPart Q)) with _ | v <;>
        simp [ht, hp, List.append_assoc]
  · simp [hs]

/-- Helper: the stream view of a failing block of complete lines
absorbs everything after it. -/
theorem ofLines_append_err {V : Type} (parse : List Char → Option V)
    (P Q : List (List Char)) (t : List Char) (hQ : Q ≠ [])
    (h : (completeRun parse P).2 = some t) :
    ofLines parse (P ++ Q) = ((completeRun parse P).1, some t) := by
  simp only [ofLines]
  rw [dropLast_append_ne _ _ hQ, completeRun_append_err parse t P _ h]

/-- Helper: the chunked NDJSON iteration computes the line-level view
of the whole stream text, for every newline-free starting buffer. -/
theorem ndjsonGo_eq {V : Type} (parse : List Char → Option V) :
    ∀ chunks buf, '\n' ∉ buf →
      ndjsonGo parse buf chunks = ofLines parse (splitLines (buf ++ chunks.join)) := by
  intro chunks
  induction chunks with
  | nil =>
    intro buf hbuf
    rw [show List.join ([] : List (List Char)) = [] from rfl, List.append_nil]
    rw [splitLines_of_noNL _ hbuf]
    simp only [ndjsonGo, ofLines, completeRun, List.dropLast, lastPart,
      List.getLastD]
    by_cases ht : trimChars buf = []
    · simp [ht]
    · rcases hp : parse (trimChars buf) with _ | v <;> simp [ht, hp]
  | cons chunk rest ih =>
    intro buf hbuf
    have hd : drainAux parse [] (buf ++ chunk) = drainSpec parse (buf ++ chunk) := by
      simpa using drainAux_eq parse (buf ++ chunk) [] (by simp)
    have hQne := splitLines_ne_nil (lastPart (splitLines (buf ++ chunk)) ++ rest.join)
    have hsplit : splitLines (buf ++ (chunk :: rest).join) =
        (splitLines (buf ++ chunk)).dropLast ++
        splitLines (lastPart (splitLines (buf ++ chunk)) ++ rest.join) := by
      rw [show (chunk :: rest).join = chunk ++ rest.join from by simp]
      rw [← List.append_assoc]
      exact splitLines_append (buf ++ chunk) rest.join
    have hihx := ih (lastPart (splitLines (buf ++ chunk)))
      (noNL_lastPart (buf ++ chunk))
    rw [show ndjsonGo parse buf (chunk :: rest) =
        (let r := drainAux parse [] (buf ++ chunk)
         match r.2.1 with
         | some t => (r.1, some t)
         | none =>
           let r2 := ndjsonGo parse r.2.2 rest
           (r.1 ++ r2.1, r2.2)) from by simp [ndjsonGo]]
    rw [hd]
    simp only [drainSpec]
    rcases hq : (completeRun parse (splitLines (buf ++ chunk)).dropLast).2 with _ | t
    · simp only [hq]
      rw [hihx, hsplit, ofLines_append_ok parse _ _ hQne hq]
    · simp only [hq]
      rw [hsplit, ofLines_append_err parse _ _ t hQne hq]

/-- The chunked NDJSON iteration agrees with the line-level view of the
joined stream text, independently of chunk boundaries. -/
theorem ndjsonRun_eq_ofLines {V : Type} (parse : List Char → Option V)
    (chunks : List (List Char)) :
    ndjsonRun parse chunks = ofLines parse (splitLines chunks.join) := by
  have h := ndjsonGo_eq parse chunks [] (by simp)
  simpa [ndjsonRun] using h

/-- Helper: a block of complete lines that all trim to empty or parse
yields exactly its parsed values, with no error. -/
theorem completeRun_allparse {V : Type} (parse : List Char → Option V) :
    ∀ a : List (List Char),
      (∀ l ∈ a, trimChars l = [] ∨ (parse (trimChars l)).isSome = true) →
      completeRun parse a =
        (a.filterMap (fun l => if trimChars l = [] then none else parse (trimChars l)),
         none) := by
  intro a
  induction a with
  | nil => intro _; rfl
  | cons l a ih =>
    intro h
    have hl := h l (by simp)
    have ha := ih (fun q hq => h q (by simp [hq]))
    by_cases ht : trimChars l = []
    · simp [completeRun, ht, ha, List.filterMap_cons]
    · rcases hp : parse (trimChars l) with _ | v
      · rcases hl with h1 | h1
        · exact absurd h1 ht
        · rw [hp] at h1
          simp at h1
      · simp [completeRun, ht, hp, ha, List.filterMap_cons]

/-- C3: for every streamed NDJSON response (any chunking), if any
complete non-empty line fails to parse, the whole iteration fails with
the normalized stream-parse error carrying that line, and the values
yielded are exactly those of the lines before it: the malformed line is
never silently skipped and iteration never continues past it (the result
is independent of every line after the malformed one). -/
theorem ndjson_malformed_line_fatal {V : Type} (parse : List Char → Option V)
    (chunks : List (List Char)) (a : List (List Char)) (bad : List Char)
    (b : List (List Char))
    (hsplit : (splitLines chunks.join).dropLast = a ++ bad :: b)
    (hbadt : trimChars bad ≠ [])
    (hbadp : parse (trimChars bad) = none)
    (hok : ∀ l ∈ a, trimChars l = [] ∨ (parse (trimChars l)).isSome = true) :
    ndjsonRun parse chunks =
      (a.filterMap (fun l => if trimChars l = [] then none else parse (trimChars l)),
       some (trimChars bad)) := by
  rw [ndjsonRun_eq_ofLines]
  have hP := completeRun_allparse parse a hok
  have hbb : completeRun parse (bad :: b) = ([], some (trimChars bad)) := by
    simp [completeRun, hbadt, hbadp]
  have hcr : completeRun parse (a ++ bad :: b) =
      (a.filterMap (fun l => if trimChars l = [] then none else parse (trimChars l)),
       some (trimChars bad)) := by
    rw [completeRun_append_ok parse a (bad :: b) (by rw [hP])]
    rw [hP, hbb]
    simp
  simp only [ofLines]
  rw [hsplit, hcr]

/-- The toy parse collaborator for the C3 witness: only the line `1`
parses. -/
def demoParse : List Char → Option Nat :=
  fun l => if l = ['1'] then some 1 else none

/-- The C3 witness stream: a valid line, a malformed line split across
chunk boundaries, and a valid line after it. -/
def demoChunks : List (List Char) := [['1', '\n'], ['x'], ['\n', '1', '\n']]

/-- Witness for C3: the malformed second line aborts the iteration after
the first value, and the valid third line is never yielded. -/
theorem ndjson_malformed_line_fatal_witness :
    (splitLines demoChunks.join).dropLast = [['1']] ++ ['x'] :: [['1']] ∧
    ndjsonRun demoParse demoChunks = ([1], some ['x']) := by
  have h := ndjson_malformed_line_fatal demoParse demoChunks [['1']] ['x'] [['1']]
    (by decide) (by decide) (by decide) (by decide)
  exact ⟨by decide, h.trans (by decide)⟩

end Fetch
